import Mathlib

/-!
Verification of the FIFO tax-lot engine of `tw-pnl.py` (tastyworks-pnl).

The Python source is shallowly embedded: floats become `ℚ`, the FIFO
dictionary (`fifos`) becomes an association list from asset names to lot
queues, ISO date strings `YYYY-MM-DD` become numeric `(year, month, day)`
triples whose lexicographic boolean order coincides with the Python string
comparison for well-formed dates, and Python exceptions become
`Option`/`Except` results.
-/

namespace TwPnl

/-- An ISO date string `YYYY-MM-DD`, split into its numeric fields.  Python
compares such strings lexicographically; for four-digit years and two-digit
month/day fields this is exactly the lexicographic order on
`(year, month, day)`. -/
structure TDate where
  year : Int
  month : Nat
  day : Nat
deriving DecidableEq, Repr

/-- Boolean strict order on dates, the image of Python string `<` on
well-formed `YYYY-MM-DD` strings. -/
def TDate.ltB (a b : TDate) : Bool :=
  decide (a.year < b.year) ||
    (decide (a.year = b.year) &&
      (decide (a.month < b.month) || (decide (a.month = b.month) && decide (a.day < b.day))))

/-- Function `prev_year` of `tw-pnl.py`: the same date one year earlier
(`str(int(date[:4]) - 1) + date[4:]`), mapped over the optional date. -/
def prev_year : Option TDate → Option TDate
  | none => none
  | some d => some ⟨d.year - 1, d.month, d.day⟩

/-- Function `sign` of `tw-pnl.py`: `1` for `x >= 0`, else `-1`. -/
def sign (x : ℚ) : Int := if x ≥ 0 then 1 else -1

/-- One FIFO entry `[price, price_usd, quantity, date, tax_free]`. -/
structure Lot where
  price : ℚ
  price_usd : ℚ
  quantity : ℚ
  date : Option TDate
  tax_free : Bool
deriving DecidableEq, Repr

/-- The `fifos` dictionary: an insertion-ordered map from asset names to
lot queues. -/
abbrev Fifos := List (String × List Lot)

/-- Dictionary read `fifos.get(asset)`: lookup of an asset key. -/
def lookupFifo : Fifos → String → Option (List Lot)
  | [], _ => none
  | (k, q) :: rest, a => if k = a then some q else lookupFifo rest a

/-- Dictionary write `fifos[asset] = q`: update the existing key in place, else insert at
the end (Python dict insertion order). -/
def setFifo : Fifos → String → List Lot → Fifos
  | [], a, q => [(a, q)]
  | (k, q0) :: rest, a, q => if k = a then (a, q) :: rest else (k, q0) :: setFifo rest a q

/-- Dictionary delete `del fifos[asset]`. -/
def delFifo : Fifos → String → Fifos
  | [], _ => []
  | (k, q0) :: rest, a => if k = a then rest else (k, q0) :: delFifo rest a

/-- The comparison `fifo[0][3] > prevyear` from `fifo_add`.  It is only
reached when `date` (hence `prevyear`) is present; for lots of a dated asset
the stored lot date is present as well, so the mixed cases are unreachable
and modelled as `false`. -/
def dateGtB : Option TDate → Option TDate → Bool
  | some a, some b => TDate.ltB b a
  | _, _ => false

/-- The taxable test of `fifo_add`: the realized amount is booked to the
taxable bucket iff `date is None or (fifo[0][3] > prevyear and quantity < 0
and not fifo[0][4] and not tax_free)`. -/
def taxableB (date : Option TDate) (prevyear : Option TDate) (lot : Lot)
    (quantity : ℚ) (tax_free : Bool) : Bool :=
  date.isNone ||
    (dateGtB lot.date prevyear && decide (quantity < 0) && !lot.tax_free && !tax_free)

/-- The `while len(fifo) > 0` loop of `fifo_add`, returning the accumulated
`(pnl, pnl_notax)` pair together with the final queue (the trailing append
of the remaining quantity included). -/
def fifo_add_loop (price price_usd : ℚ) (date : Option TDate) (tax_free : Bool)
    (prevyear : Option TDate) : ℚ → List Lot → (ℚ × ℚ) × List Lot
  | quantity, [] => ((0, 0), [⟨price, price_usd, quantity, date, tax_free⟩])
  | quantity, lot :: rest =>
    if sign lot.quantity = sign quantity then
      ((0, 0), (lot :: rest) ++ [⟨price, price_usd, quantity, date, tax_free⟩])
    else if |quantity| ≤ |lot.quantity| then
      let p := quantity * (price - lot.price)
      let pair : ℚ × ℚ :=
        if taxableB date prevyear lot quantity tax_free then (-p, 0) else (0, -p)
      let newq := lot.quantity + quantity
      (pair, if newq = 0 then rest else ⟨lot.price, lot.price_usd, newq, lot.date, lot.tax_free⟩ :: rest)
    else
      let p := lot.quantity * (price - lot.price)
      let r := fifo_add_loop price price_usd date tax_free prevyear (quantity + lot.quantity) rest
      (if taxableB date prevyear lot quantity tax_free
        then (r.1.1 + p, r.1.2) else (r.1.1, r.1.2 + p), r.2)

/-- Function `fifo_add(fifos, quantity, price, price_usd, asset, date, tax_free)`:
returns `(pnl, pnl_notax)` together with the updated `fifos` map (a queue
emptied by an exact match is deleted from the map). -/
def fifo_add (fifos : Fifos) (quantity price price_usd : ℚ) (asset : String)
    (date : Option TDate) (tax_free : Bool) : (ℚ × ℚ) × Fifos :=
  if quantity = 0 then ((0, 0), fifos)
  else
    let fifo := (lookupFifo fifos asset).getD []
    let r := fifo_add_loop price price_usd date tax_free (prev_year date) quantity fifo
    if r.2 = [] then (r.1, delFifo fifos asset)
    else (r.1, setFifo fifos asset r.2)

/-- The taxability rule exactly as claim C1 words it, for one match of an
incoming quantity against a held lot (a match is always a closing/decreasing
trade, so that conjunct of the claim holds by construction): non-taxable iff
a date was supplied AND the lot's acquisition date is more than one calendar
year before the current transaction date AND the lot was not itself opened
tax-free AND the current transaction is not itself flagged tax-free. -/
def specC1_nontaxable (date : Option TDate) (lot : Lot) (tax_free : Bool) : Bool :=
  date.isSome && dateGtB (prev_year date) lot.date && !lot.tax_free && !tax_free

/-- Function `fifos_islong(fifos, asset)`: `fifos[asset][0][2] > 0`.  A missing asset
key (Python `KeyError`) or an empty queue (Python `IndexError`) is `none`. -/
def fifos_islong (fifos : Fifos) (asset : String) : Option Bool :=
  match lookupFifo fifos asset with
  | none => none
  | some [] => none
  | some (lot :: _) => some (decide (lot.quantity > 0))

/-- The per-lot rescaling of `fifos_split`: `f[0] /= ratio`, `f[1] /= ratio`,
`f[2] *= ratio`. -/
def lot_split (ratio : ℚ) (l : Lot) : Lot :=
  ⟨l.price / ratio, l.price_usd / ratio, l.quantity * ratio, l.date, l.tax_free⟩

/-- Function `fifos_split(fifos, asset, ratio)`: rescale every lot of the affected
asset, leave every other key untouched. -/
def fifos_split (fifos : Fifos) (asset : String) (ratio : ℚ) : Fifos :=
  fifos.map (fun kq => (kq.1, if kq.1 = asset then kq.2.map (lot_split ratio) else kq.2))

/-- Function `get_eurusd(date)` of `tw-pnl.py`, with dates as day offsets from an
epoch that precedes the table's coverage.  `table d = none` models a date
absent from `eurusd` (Python `KeyError`, i.e. `sys.exit(1)`, result `none`);
`table d = some none` models a date present with a `'.'` entry (rate `None`),
on which the loop steps back one day.  Day `0` lies before the coverage, so
stepping below it aborts like any absent date. -/
def get_eurusd (table : Nat → Option (Option ℚ)) : Nat → Option ℚ
  | 0 =>
    match table 0 with
    | none => none
    | some (some x) => some x
    | some none => none
  | d + 1 =>
    match table (d + 1) with
    | none => none
    | some (some x) => some x
    | some none => get_eurusd table d

/-- List `TastytradeHelper.CASH_SETTLED_SYMBOLS`. -/
def CASH_SETTLED_SYMBOLS : List String := ["SPXW", "SPX", "VIXW"]

/-- Helper for `pySplit`: the accumulator holds the current token's
characters in reverse. -/
def pySplitAux : List Char → List Char → List String
  | [], acc => if acc = [] then [] else [String.mk acc.reverse]
  | c :: cs, acc =>
    if c.isWhitespace then
      if acc = [] then pySplitAux cs [] else String.mk acc.reverse :: pySplitAux cs []
    else pySplitAux cs (c :: acc)

/-- Python `str.split()` with no argument: split on whitespace runs and
drop empty pieces. -/
def pySplit (s : String) : List String :=
  pySplitAux s.data []

/-- Python `str.startswith(p)`. -/
def startswith (p s : String) : Bool :=
  p.data.isPrefixOf s.data

/-- Function `TastytradeHelper.is_symbol_cash_settled(symbol)`: take the first
whitespace-separated token (`symbol.split()[0]`; `none` models the
`IndexError` when no token exists) and test whether it starts with one of
the cash-settled prefixes. -/
def is_symbol_cash_settled (symbol : String) : Option Bool :=
  match pySplit symbol with
  | [] => none
  | core :: _ => some (CASH_SETTLED_SYMBOLS.any (fun p => startswith p core))

/-- The `Receive Deliver` duplicate-settlement suppression branch of
`check`: an `Exercise`/`Assignment` row of a cash-settled symbol is dropped
(`continue`) before any output row is emitted.  `some true` means dropped. -/
def cash_settled_drop (tcode tsubcode symbol : String) : Option Bool :=
  if tcode = "Receive Deliver" ∧ (tsubcode = "Exercise" ∨ tsubcode = "Assignment") then
    is_symbol_cash_settled symbol
  else some false

/-- The `Anlage SO` slice of one iteration of the year loop in
`get_summary` (lines building `'Anlage SO'`, `'Anlage SO Steuerbetrag'` and
`'Anlage SO Verlustvortrag'`): from the year's crypto gains `kg`, crypto
losses `kv`, taxable currency gains `w` and the carry-forward `carry` of the
previous year (`0` for the first year, where the source skips the
addition).  Returns `(Anlage SO, Steuerbetrag, Verlustvortrag)`. -/
def so_step (kg kv w : ℚ) (year : Int) (carry : ℚ) : ℚ × ℚ × ℚ :=
  let anlage_so_base := kg + kv + (if year < 2024 then w else 0)
  let anlage_so := anlage_so_base + carry
  let anlage_so_verlust := if anlage_so < 0 then anlage_so else 0
  let so_freigrenze : ℚ := if year ≥ 2024 then 1000 else 600
  let steuerbetrag := if anlage_so < so_freigrenze then 0 else anlage_so
  (anlage_so_base, steuerbetrag, anlage_so_verlust)

/-- The year loop of `get_summary` restricted to the `Anlage SO` rows:
consecutive years starting at `year`, each receiving the previous year's
`'Anlage SO Verlustvortrag'` as carry. -/
def so_run (year : Int) (carry : ℚ) : List (ℚ × ℚ × ℚ) → List (ℚ × ℚ × ℚ)
  | [] => []
  | (kg, kv, w) :: rest =>
    let r := so_step kg kv w year carry
    r :: so_run (year + 1) r.2.2 rest

/-- The fields of an ordinary trade / expiration / assignment / exercise
row that drive the option classification and direction resolution in the
final `else` branch of `check` (`hasExpire` is `not isnan(expire)`,
`asset` the formatted option asset key). -/
structure TradeRow where
  tsubcode : String
  buysell : String
  openclose : String
  hasExpire : Bool
  asset : String
  quantity : ℚ
deriving DecidableEq, Repr

/-- Option direction tags (`AssetType.LongOption` / `AssetType.ShortOption`). -/
inductive OptionType
  | LongOption
  | ShortOption
deriving DecidableEq, Repr

/-- The subcode tuple used at the two `fifos_islong` call sites of `check`. -/
def EXPIRY_SUBCODES : List String :=
  ["Expiration", "Exercise", "Assignment", "Cash Settled Assignment", "Cash Settled Exercise"]

/-- Lines 1129-1133 of `check`: classify an option row as long or short,
mirroring Python's short-circuit `or` (the `fifos_islong` lookup is only
evaluated when the first two disjuncts fail); `none` for non-option rows.
A `fifos_islong` failure (missing asset key) is `.error ()`. -/
def classify_option (fifos : Fifos) (row : TradeRow) : Except Unit (Option OptionType) :=
  if row.hasExpire then
    if (row.buysell = "Sell" ∧ row.openclose = "Open") ∨
        (row.buysell = "Buy" ∧ row.openclose = "Close") then
      .ok (some .ShortOption)
    else if row.tsubcode ∈ EXPIRY_SUBCODES then
      match fifos_islong fifos row.asset with
      | none => .error ()
      | some islong => .ok (some (if islong then .LongOption else .ShortOption))
    else .ok (some .LongOption)
  else .ok none

/-- Lines 1139-1142 of `check`: resolve the signed quantity, mirroring
Python's short-circuit `or` (for `buysell == 'Sell'` the `fifos_islong`
lookup is never evaluated). -/
def resolve_direction (fifos : Fifos) (row : TradeRow) : Except Unit ℚ :=
  if row.buysell = "Sell" then .ok (-row.quantity)
  else if row.tsubcode ∈ EXPIRY_SUBCODES then
    match fifos_islong fifos row.asset with
    | none => .error ()
    | some islong => .ok (if islong then -row.quantity else row.quantity)
  else .ok row.quantity

/-- The part of the final `else` branch of `check` that can hit the
`fifos_islong` lookup: classification followed by direction resolution. -/
def process_option_row (fifos : Fifos) (row : TradeRow) :
    Except Unit (Option OptionType × ℚ) :=
  match classify_option fifos row with
  | .error e => .error e
  | .ok t =>
    match resolve_direction fifos row with
    | .error e => .error e
    | .ok q => .ok (t, q)

/-- The result of walking backward from day `d`: rate `r` stands at some
day `a ≤ d`, and every day strictly between `a` and `d` is present in the
table but rate-less (a `'.'` entry). -/
def rateAt (table : Nat → Option (Option ℚ)) (d : Nat) (r : ℚ) : Prop :=
  ∃ a, a ≤ d ∧ table a = some (some r) ∧ ∀ e, a < e → e ≤ d → table e = some none

/-- A small concrete exchange-rate table: a rate on day 2, rate-less
entries on the weekend days 3 and 4, nothing else. -/
def eurusdTableEx : Nat → Option (Option ℚ) := fun d =>
  if d = 2 then some (some (11/10)) else if d = 3 then some none
  else if d = 4 then some none else none

/-- A well-formed lot queue: no zero-quantity lot, and all lots share one
sign of quantity. -/
def QueueWF (q : List Lot) : Prop :=
  (∀ l ∈ q, l.quantity ≠ 0) ∧ ∀ l1 ∈ q, ∀ l2 ∈ q, sign l1.quantity = sign l2.quantity

/-- The `fifos` map invariant of claim C4: distinct asset keys, and every
stored queue is non-empty and well-formed (an emptied queue is deleted, so
no empty queue is ever left in the map). -/
def FifosInv (f : Fifos) : Prop :=
  (f.map Prod.fst).Nodup ∧ ∀ kq ∈ f, kq.2 ≠ [] ∧ QueueWF kq.2

/-- One argument tuple of a `fifo_add` call. -/
structure AddCall where
  quantity : ℚ
  price : ℚ
  price_usd : ℚ
  asset : String
  date : Option TDate
  tax_free : Bool

/-- Run a sequence of `fifo_add` calls against the initially empty map,
threading the updated map. -/
def run_adds (calls : List AddCall) : Fifos :=
  calls.foldl (fun f c => (fifo_add f c.quantity c.price c.price_usd c.asset c.date c.tax_free).2) []

/-- The boolean taxable test of `fifo_add`, spelled out as a proposition. -/
theorem taxableB_iff (date prevyear : Option TDate) (lot : Lot) (q : ℚ) (tf : Bool) :
    taxableB date prevyear lot q tf = true ↔
      (date = none ∨ (dateGtB lot.date prevyear = true ∧ q < 0
        ∧ lot.tax_free = false ∧ tf = false)) := by
  simp [taxableB, Option.isNone_iff_eq_none, Bool.or_eq_true, Bool.and_eq_true,
    decide_eq_true_eq, Bool.not_eq_true', and_assoc]

/-- Unfolding the matching loop in the continue case: the incoming
magnitude exceeds the head lot's magnitude, so the whole head lot is
realized and matching continues against the tail with the reduced
quantity. -/
theorem fifo_add_loop_continue (price price_usd : ℚ) (date : Option TDate) (tax_free : Bool)
    (prevyear : Option TDate) (q : ℚ) (lot : Lot) (rest : List Lot)
    (hsign : ¬ sign lot.quantity = sign q) (habs : ¬ |q| ≤ |lot.quantity|) :
    fifo_add_loop price price_usd date tax_free prevyear q (lot :: rest) =
      (let r := fifo_add_loop price price_usd date tax_free prevyear (q + lot.quantity) rest
       (if taxableB date prevyear lot q tax_free
        then (r.1.1 + lot.quantity * (price - lot.price), r.1.2)
        else (r.1.1, r.1.2 + lot.quantity * (price - lot.price)), r.2)) := by
  simp only [fifo_add_loop, if_neg hsign, if_neg habs]

/-- Unfolding the matching loop in the final-match case: the head lot's
magnitude is at least the incoming magnitude, so the head lot is reduced in
place (and dropped when it reaches zero) and matching stops. -/
theorem fifo_add_loop_last (price price_usd : ℚ) (date : Option TDate) (tax_free : Bool)
    (prevyear : Option TDate) (q : ℚ) (lot : Lot) (rest : List Lot)
    (hsign : ¬ sign lot.quantity = sign q) (habs : |q| ≤ |lot.quantity|) :
    fifo_add_loop price price_usd date tax_free prevyear q (lot :: rest) =
      ((if taxableB date prevyear lot q tax_free
        then (-(q * (price - lot.price)), 0) else (0, -(q * (price - lot.price)))),
       if lot.quantity + q = 0 then rest
       else ⟨lot.price, lot.price_usd, lot.quantity + q, lot.date, lot.tax_free⟩ :: rest) := by
  simp only [fifo_add_loop, if_neg hsign, if_pos habs]

/-- C2: the lot-matching operation consumes opposing lots strictly in FIFO
order: when the incoming magnitude exceeds the head lot's magnitude the head
lot is consumed entirely and matching continues against the next lot; when
the head lot's magnitude is at least the incoming magnitude the head lot is
reduced.  Concretely, for lots `[(10,100),(10,110)]` and a closing trade of
quantity `-15` at price `120` held under one year, the realized taxable P&L
is `10*(120-100) + 5*(120-110) = 250` and the queue afterwards holds the
single lot `(5,110)`. -/
theorem claim_C2_fifo_order :
    (∀ (price price_usd : ℚ) (date : Option TDate) (tax_free : Bool)
        (prevyear : Option TDate) (q : ℚ) (lot : Lot) (rest : List Lot),
      ¬ sign lot.quantity = sign q → ¬ |q| ≤ |lot.quantity| →
      fifo_add_loop price price_usd date tax_free prevyear q (lot :: rest) =
        (let r := fifo_add_loop price price_usd date tax_free prevyear (q + lot.quantity) rest
         (if taxableB date prevyear lot q tax_free
          then (r.1.1 + lot.quantity * (price - lot.price), r.1.2)
          else (r.1.1, r.1.2 + lot.quantity * (price - lot.price)), r.2)))
    ∧ (∀ (price price_usd : ℚ) (date : Option TDate) (tax_free : Bool)
        (prevyear : Option TDate) (q : ℚ) (lot : Lot) (rest : List Lot),
      ¬ sign lot.quantity = sign q → |q| ≤ |lot.quantity| →
      fifo_add_loop price price_usd date tax_free prevyear q (lot :: rest) =
        ((if taxableB date prevyear lot q tax_free
          then (-(q * (price - lot.price)), 0) else (0, -(q * (price - lot.price)))),
         if lot.quantity + q = 0 then rest
         else ⟨lot.price, lot.price_usd, lot.quantity + q, lot.date, lot.tax_free⟩ :: rest))
    ∧ fifo_add [("X", [⟨100, 100, 10, some ⟨2023, 1, 10⟩, false⟩,
          ⟨110, 110, 10, some ⟨2023, 2, 10⟩, false⟩])]
        (-15) 120 120 "X" (some ⟨2023, 6, 10⟩) false
      = ((250, 0), [("X", [⟨110, 110, 5, some ⟨2023, 2, 10⟩, false⟩])]) := by
  refine ⟨fun p pu d tf pv q lot rest h1 h2 => fifo_add_loop_continue p pu d tf pv q lot rest h1 h2,
    fun p pu d tf pv q lot rest h1 h2 => fifo_add_loop_last p pu d tf pv q lot rest h1 h2, ?_⟩
  norm_num [fifo_add, fifo_add_loop, lookupFifo, setFifo, taxableB, dateGtB, TDate.ltB,
    prev_year, sign]

/-- Witness for C2: the continue case of the theorem applied to the claim's
own concrete queue `[(10,100),(10,110)]` and incoming quantity `-15`. -/
theorem claim_C2_witness :
    (¬ sign ((⟨100, 100, 10, none, false⟩ : Lot)).quantity = sign (-15 : ℚ))
    ∧ (¬ |(-15 : ℚ)| ≤ |((⟨100, 100, 10, none, false⟩ : Lot)).quantity|)
    ∧ fifo_add_loop 120 120 none false none (-15)
        [⟨100, 100, 10, none, false⟩, ⟨110, 110, 10, none, false⟩] =
        (let r := fifo_add_loop 120 120 none false none
            (-15 + (⟨100, 100, 10, none, false⟩ : Lot).quantity) [⟨110, 110, 10, none, false⟩]
         (if taxableB none none ⟨100, 100, 10, none, false⟩ (-15) false
          then (r.1.1 + (⟨100, 100, 10, none, false⟩ : Lot).quantity * (120 - 100), r.1.2)
          else (r.1.1, r.1.2 + (⟨100, 100, 10, none, false⟩ : Lot).quantity * (120 - 100)), r.2)) := by
  refine ⟨by norm_num [sign], by norm_num, ?_⟩
  exact claim_C2_fifo_order.1 120 120 none false none (-15) ⟨100, 100, 10, none, false⟩
    [⟨110, 110, 10, none, false⟩] (by norm_num [sign]) (by norm_num)

/-- Counterexample to C3: opening a short option position (negative
quantity, empty queue) returns `(0, 0)` from `fifo_add` — the received
premium `quantity * price = -100 ≠ 0` is *not* realized by the match
operation (premium recognition happens in the caller, which flags the
transaction tax-free and books its cash amount, not in `fifo_add`). -/
theorem claim_C3_counterexample :
    fifo_add [] (-1) 100 100 "SPY P300 23-06-16" none false
      = ((0, 0), [("SPY P300 23-06-16", [⟨100, 100, -1, none, false⟩])])
    ∧ (-1 : ℚ) * 100 ≠ 0 := by
  constructor
  · norm_num [fifo_add, fifo_add_loop, lookupFifo, setFifo]
  · norm_num

/-- C3 as amended: a call with a quantity of the same sign as the head lot
(or with no queue for the asset) appends a new lot and returns `(0,0)` in
every case — also when a short option position is being opened; `fifo_add`
never realizes premium on an opening append. -/
theorem claim_C3_append :
    ∀ (fifos : Fifos) (q price price_usd : ℚ) (asset : String) (date : Option TDate)
      (tax_free : Bool),
      q ≠ 0 →
      (lookupFifo fifos asset = none ∨
        ∃ lot rest, lookupFifo fifos asset = some (lot :: rest) ∧ sign lot.quantity = sign q) →
      fifo_add fifos q price price_usd asset date tax_free
        = ((0, 0), setFifo fifos asset
            (((lookupFifo fifos asset).getD []) ++ [⟨price, price_usd, q, date, tax_free⟩])) := by
  intro fifos q price price_usd asset date tax_free hq hcase
  rcases hcase with hnone | ⟨lot, rest, hsome, hsign⟩
  · simp only [fifo_add, if_neg hq, hnone, Option.getD_none, fifo_add_loop]
    simp
  · simp only [fifo_add, if_neg hq, hsome, Option.getD_some, fifo_add_loop, if_pos hsign]
    simp

/-- Witness for C3: a short option opened by Sell-to-Open (quantity `-1`)
on an empty queue appends the lot and realizes nothing. -/
theorem claim_C3_witness :
    ((-1 : ℚ) ≠ 0)
    ∧ fifo_add [] (-1) 100 100 "SPXW P3800 23-06-16" none true
      = ((0, 0), [("SPXW P3800 23-06-16", [⟨100, 100, -1, none, true⟩])]) := by
  refine ⟨by norm_num, ?_⟩
  have h := claim_C3_append [] (-1) 100 100 "SPXW P3800 23-06-16" none true
    (by norm_num) (Or.inl rfl)
  simpa [setFifo, lookupFifo] using h

/-- Counterexample to C1: a dated match that is flagged tax-free (here the
current transaction itself, with the lot held only one month and sold) is
booked by `fifo_add` to the *non-taxable* bucket — the full realized amount
`200` lands in `pnl_notax` — although the claim's iff classifies exactly
this match as taxable (its conjunct "the current transaction is not itself
flagged tax-free" fails, and so does the holding-period conjunct). -/
theorem claim_C1_counterexample :
    fifo_add [("X", [⟨100, 100, 10, some ⟨2023, 6, 1⟩, false⟩])]
      (-10) 120 120 "X" (some ⟨2023, 7, 1⟩) true = ((0, 200), [])
    ∧ specC1_nontaxable (some ⟨2023, 7, 1⟩) ⟨100, 100, 10, some ⟨2023, 6, 1⟩, false⟩ true
        = false := by
  constructor
  · norm_num [fifo_add, fifo_add_loop, lookupFifo, delFifo, taxableB, dateGtB, TDate.ltB,
      prev_year, sign]
  · decide

/-- C1 as amended: a match against a held lot is booked *taxable* iff no
date was supplied OR (the lot was acquired one year or less before the
current transaction AND the incoming quantity is a sell (negative) AND the
lot was not opened tax-free AND the transaction is not flagged tax-free);
otherwise — date supplied and the negation of that inner conjunction — it is
booked non-taxable.  (The claim instead required *all* the inner conjuncts
positively for non-taxability; the code requires only that their conjunction
fail.)  In particular a dated lot held at least one year and closed by an
ordinary non-tax-free sell realizes entirely as non-taxable, and the same
lot closed after eleven months realizes entirely as taxable. -/
theorem claim_C1_classification :
    ∀ (fifos : Fifos) (lot : Lot) (rest : List Lot) (q price price_usd : ℚ)
      (asset : String) (date : Option TDate) (tax_free : Bool),
      lookupFifo fifos asset = some (lot :: rest) →
      ¬ sign lot.quantity = sign q →
      |q| ≤ |lot.quantity| →
      q ≠ 0 →
      (fifo_add fifos q price price_usd asset date tax_free).1 =
        if date = none ∨ (dateGtB lot.date (prev_year date) = true ∧ q < 0
            ∧ lot.tax_free = false ∧ tax_free = false)
        then (-(q * (price - lot.price)), 0)
        else (0, -(q * (price - lot.price))) := by
  intro fifos lot rest q price price_usd asset date tax_free hlook hsign habs hq
  have hloop := fifo_add_loop_last price price_usd date tax_free (prev_year date) q lot rest
    hsign habs
  have htax := taxableB_iff date (prev_year date) lot q tax_free
  simp only [fifo_add, if_neg hq, hlook, Option.getD_some, hloop]
  by_cases h : date = none ∨ (dateGtB lot.date (prev_year date) = true ∧ q < 0
      ∧ lot.tax_free = false ∧ tax_free = false)
  · have hb : taxableB date (prev_year date) lot q tax_free = true := htax.mpr h
    simp [hb, h, apply_ite (Prod.fst)]
  · have hb : taxableB date (prev_year date) lot q tax_free = false := by
      rcases Bool.eq_false_or_eq_true (taxableB date (prev_year date) lot q tax_free) with h1 | h0
      · exact absurd (htax.mp h1) h
      · exact h0
    simp [hb, h, apply_ite (Prod.fst)]

/-- Witness for C1: the same lot of 10 shares bought at 100 and sold at 120
by an ordinary non-tax-free sell realizes its 200 gain entirely as
non-taxable when held thirteen months (acquired 2022-06-01, sold
2023-07-01) and entirely as taxable when held eleven months (acquired
2022-08-01, sold 2023-07-01). -/
theorem claim_C1_witness :
    (fifo_add [("X", [⟨100, 100, 10, some ⟨2022, 6, 1⟩, false⟩])]
      (-10) 120 120 "X" (some ⟨2023, 7, 1⟩) false).1 = (0, 200)
    ∧ (fifo_add [("Y", [⟨100, 100, 10, some ⟨2022, 8, 1⟩, false⟩])]
      (-10) 120 120 "Y" (some ⟨2023, 7, 1⟩) false).1 = (200, 0) := by
  constructor
  · have ha := claim_C1_classification [("X", [⟨100, 100, 10, some ⟨2022, 6, 1⟩, false⟩])]
      ⟨100, 100, 10, some ⟨2022, 6, 1⟩, false⟩ [] (-10) 120 120 "X"
      (some ⟨2023, 7, 1⟩) false rfl (by norm_num [sign]) (by norm_num) (by norm_num)
    rw [ha, if_neg ?_]
    · norm_num
    · rintro (h | ⟨hd, _⟩)
      · exact Option.noConfusion h
      · exact absurd hd (by decide)
  · have hb := claim_C1_classification [("Y", [⟨100, 100, 10, some ⟨2022, 8, 1⟩, false⟩])]
      ⟨100, 100, 10, some ⟨2022, 8, 1⟩, false⟩ [] (-10) 120 120 "Y"
      (some ⟨2023, 7, 1⟩) false rfl (by norm_num [sign]) (by norm_num) (by norm_num)
    rw [hb, if_pos (Or.inr ⟨by decide, by norm_num, rfl, rfl⟩)]
    norm_num

/-- Counterexample to C9: the symbol `" "` is a non-empty string, yet the
cash-settlement test does not return a boolean for it — `symbol.split()[0]`
raises `IndexError` (modelled as `none`) because the symbol has no
whitespace-separated token. -/
theorem claim_C9_counterexample :
    is_symbol_cash_settled " " = none ∧ (" " : String) ≠ "" := by
  exact ⟨by decide, by decide⟩

/-- C9 as amended: for every symbol string with at least one
whitespace-separated token, the cash-settlement test returns `True` iff the
first token starts with one of the prefixes `SPXW`, `SPX`, `VIXW`
(whitespace-only symbols instead raise); consequently `SPXL`, whose root
merely begins with `SPX`, is treated as cash-settled and its
`Receive Deliver` `Exercise`/`Assignment` rows are dropped. -/
theorem claim_C9_cash_settled :
    (∀ (s core : String) (rest : List String), pySplit s = core :: rest →
      is_symbol_cash_settled s = some (CASH_SETTLED_SYMBOLS.any (fun p => startswith p core)))
    ∧ is_symbol_cash_settled "SPXL" = some true
    ∧ cash_settled_drop "Receive Deliver" "Exercise" "SPXL" = some true
    ∧ cash_settled_drop "Receive Deliver" "Assignment" "SPXL" = some true := by
  refine ⟨?_, by decide, by decide, by decide⟩
  intro s core rest h
  simp [is_symbol_cash_settled, h]

/-- Witness for C9: a real cash-settled option symbol, whose first token is
`SPX`. -/
theorem claim_C9_witness :
    pySplit "SPX 230616P3800" = ["SPX", "230616P3800"]
    ∧ is_symbol_cash_settled "SPX 230616P3800"
        = some (CASH_SETTLED_SYMBOLS.any (fun p => startswith p "SPX")) := by
  refine ⟨by decide, ?_⟩
  exact claim_C9_cash_settled.1 "SPX 230616P3800" "SPX" ["230616P3800"] (by decide)

/-- Counterexample to C10: an `Expiration` row that reports `Sell`/`Open`
is processed without any `fifos_islong` lookup — both call sites are
short-circuited — so processing succeeds even though the asset has no open
lot at all, contradicting the claim that every
Expiration/Exercise/Assignment row for an asset with no open lot fails with
a lookup error. -/
theorem claim_C10_counterexample :
    process_option_row [] ⟨"Expiration", "Sell", "Open", true, "XYZ P100 23-01-20", 1⟩
      = .ok (some .ShortOption, -1) := by
  norm_num [process_option_row, classify_option, resolve_direction, EXPIRY_SUBCODES]

/-- C10 as amended: `fifos_islong` is defined exactly when the asset key
has a non-empty lot queue; the processor reaches its unguarded call for
every Expiration/Exercise/Assignment/Cash Settled Assignment/Cash Settled
Exercise option row whose buy/sell field is blank (as the vendor feed
reports for such rows — a reported `Sell` short-circuits both call sites),
so processing such a blank-direction row fails with a lookup error iff the
asset has no open lot, and succeeds when a lot queue is present. -/
theorem claim_C10_islong_guard :
    (∀ (fifos : Fifos) (asset : String),
      (fifos_islong fifos asset).isSome
        ↔ ∃ lot rest, lookupFifo fifos asset = some (lot :: rest))
    ∧ (∀ (fifos : Fifos) (row : TradeRow),
      row.hasExpire = true → row.tsubcode ∈ EXPIRY_SUBCODES → row.buysell = "" →
      (lookupFifo fifos row.asset = none → process_option_row fifos row = .error ())
      ∧ (∀ (lot : Lot) (rest : List Lot),
          lookupFifo fifos row.asset = some (lot :: rest) →
          process_option_row fifos row =
            .ok (some (if lot.quantity > 0 then .LongOption else .ShortOption),
                 if lot.quantity > 0 then -row.quantity else row.quantity))) := by
  constructor
  · intro fifos asset
    constructor
    · intro h
      cases hl : lookupFifo fifos asset with
      | none => simp [fifos_islong, hl] at h
      | some q =>
        cases q with
        | nil => simp [fifos_islong, hl] at h
        | cons lot rest => exact ⟨lot, rest, rfl⟩
    · rintro ⟨lot, rest, h⟩
      simp [fifos_islong, h]
  · intro fifos row hexp hsub hbs
    constructor
    · intro hnone
      have hcls : classify_option fifos row = .error () := by
        simp [classify_option, hexp, hbs, hsub, fifos_islong, hnone]
      simp [process_option_row, hcls]
    · intro lot rest hsome
      by_cases hq : lot.quantity > 0
      · simp [process_option_row, classify_option, resolve_direction, hexp, hbs, hsub,
          fifos_islong, hsome, hq]
      · simp [process_option_row, classify_option, resolve_direction, hexp, hbs, hsub,
          fifos_islong, hsome, hq]

/-- Witness for C10: a blank-direction `Expiration` row for an asset with
no open lot fails with the lookup error. -/
theorem claim_C10_witness :
    ((⟨"Expiration", "", "", true, "XYZ P100 23-01-20", 2⟩ : TradeRow).hasExpire = true)
    ∧ ("Expiration" ∈ EXPIRY_SUBCODES)
    ∧ ((⟨"Expiration", "", "", true, "XYZ P100 23-01-20", 2⟩ : TradeRow).buysell = "")
    ∧ lookupFifo [] "XYZ P100 23-01-20" = none
    ∧ process_option_row [] ⟨"Expiration", "", "", true, "XYZ P100 23-01-20", 2⟩ = .error () := by
  refine ⟨rfl, by decide, rfl, rfl, ?_⟩
  exact (claim_C10_islong_guard.2 [] ⟨"Expiration", "", "", true, "XYZ P100 23-01-20", 2⟩
    rfl (by decide) rfl).1 rfl

/-- Splitting rescales exactly the affected asset's queue. -/
theorem lookup_fifos_split_eq (fifos : Fifos) (asset : String) (ratio : ℚ) :
    lookupFifo (fifos_split fifos asset ratio) asset
      = (lookupFifo fifos asset).map (List.map (lot_split ratio)) := by
  induction fifos with
  | nil => rfl
  | cons kq rest ih =>
    obtain ⟨k, q⟩ := kq
    by_cases hk : k = asset
    · subst hk
      simp [fifos_split, lookupFifo]
    · simp only [fifos_split, List.map_cons] at ih ⊢
      simp [lookupFifo, hk] at ih ⊢
      exact ih

/-- Splitting leaves every other asset key untouched. -/
theorem lookup_fifos_split_ne (fifos : Fifos) (asset k : String) (ratio : ℚ)
    (hk : k ≠ asset) :
    lookupFifo (fifos_split fifos asset ratio) k = lookupFifo fifos k := by
  induction fifos with
  | nil => rfl
  | cons kq rest ih =>
    obtain ⟨k0, q⟩ := kq
    by_cases h0 : k0 = asset
    · subst h0
      have hne : ¬ k0 = k := fun h => hk h.symm
      simp only [fifos_split, List.map_cons] at ih ⊢
      simp [lookupFifo, hne] at ih ⊢
      exact ih
    · simp only [fifos_split, List.map_cons] at ih ⊢
      by_cases h1 : k0 = k
      · subst h1
        simp [lookupFifo, h0]
      · simp [lookupFifo, h0, h1] at ih ⊢
        exact ih

/-- C6: applying a split with ratio `r` maps every open lot of the affected
asset to one with quantity multiplied by `r` and both unit prices divided by
`r`, leaves each lot's `quantity * price` position value unchanged (for a
nonzero ratio), leaves every other asset key's lots unchanged, and for ratio
`2` doubles the quantity and halves both prices. -/
theorem claim_C6_split :
    (∀ (fifos : Fifos) (asset : String) (ratio : ℚ),
      lookupFifo (fifos_split fifos asset ratio) asset
        = (lookupFifo fifos asset).map (List.map (lot_split ratio)))
    ∧ (∀ (fifos : Fifos) (asset k : String) (ratio : ℚ), k ≠ asset →
      lookupFifo (fifos_split fifos asset ratio) k = lookupFifo fifos k)
    ∧ (∀ (l : Lot) (ratio : ℚ), ratio ≠ 0 →
      (lot_split ratio l).quantity * (lot_split ratio l).price = l.quantity * l.price
      ∧ (lot_split ratio l).quantity * (lot_split ratio l).price_usd
          = l.quantity * l.price_usd)
    ∧ (∀ l : Lot, (lot_split 2 l).quantity = 2 * l.quantity
      ∧ (lot_split 2 l).price = l.price / 2
      ∧ (lot_split 2 l).price_usd = l.price_usd / 2) := by
  refine ⟨lookup_fifos_split_eq, fun fifos asset k ratio hk =>
    lookup_fifos_split_ne fifos asset k ratio hk, ?_, ?_⟩
  · intro l ratio hr
    constructor
    · show l.quantity * ratio * (l.price / ratio) = l.quantity * l.price
      field_simp
      ring
    · show l.quantity * ratio * (l.price_usd / ratio) = l.quantity * l.price_usd
      field_simp
      ring
  · intro l
    refine ⟨?_, rfl, rfl⟩
    show l.quantity * 2 = 2 * l.quantity
    ring

/-- Witness for C6: a ratio-2 split of `AAPL` doubles its lot quantity,
halves both its unit prices, keeps the lot's position value, and leaves the
`TQQQ` queue untouched. -/
theorem claim_C6_witness :
    ((2 : ℚ) ≠ 0)
    ∧ (("TQQQ" : String) ≠ "AAPL")
    ∧ lookupFifo (fifos_split [("AAPL", [⟨150, 160, 10, some ⟨2022, 6, 1⟩, false⟩]),
        ("TQQQ", [⟨30, 32, 7, none, false⟩])] "AAPL" 2) "AAPL"
      = some [⟨75, 80, 20, some ⟨2022, 6, 1⟩, false⟩]
    ∧ lookupFifo (fifos_split [("AAPL", [⟨150, 160, 10, some ⟨2022, 6, 1⟩, false⟩]),
        ("TQQQ", [⟨30, 32, 7, none, false⟩])] "AAPL" 2) "TQQQ"
      = some [⟨30, 32, 7, none, false⟩]
    ∧ (lot_split 2 (⟨150, 160, 10, some ⟨2022, 6, 1⟩, false⟩ : Lot)).quantity *
        (lot_split 2 (⟨150, 160, 10, some ⟨2022, 6, 1⟩, false⟩ : Lot)).price = 10 * 150 := by
  refine ⟨by norm_num, by decide, ?_, ?_, ?_⟩
  · rw [claim_C6_split.1]
    norm_num [lookupFifo, lot_split]
  · have h := claim_C6_split.2.1 [("AAPL", [⟨150, 160, 10, some ⟨2022, 6, 1⟩, false⟩]),
      ("TQQQ", [⟨30, 32, 7, none, false⟩])] "AAPL" "TQQQ" 2 (by decide)
    rw [h]
    norm_num [lookupFifo, show ("AAPL" : String) ≠ "TQQQ" from by decide]
  · exact ((claim_C6_split.2.2.1 ⟨150, 160, 10, some ⟨2022, 6, 1⟩, false⟩ 2
      (by norm_num)).1).trans (by norm_num)

/-- C5: for each year, the `Anlage SO` base is the year's crypto gains plus
crypto losses, plus the taxable currency gains when the year is before the
2024 cutoff; after adding the previous year's carry-forward, a negative
total is recorded as that year's loss carry-forward, the taxed amount is
zero whenever the total lies below the allowance threshold (600 before
2024, 1000 from 2024 on) and equals the full total otherwise — in
particular a negative total is never taxed — and the year loop threads each
year's recorded carry-forward into the following year. -/
theorem claim_C5_anlage_so :
    (∀ (kg kv w carry : ℚ) (year : Int),
      (so_step kg kv w year carry).1 = kg + kv + (if year < 2024 then w else 0))
    ∧ (∀ (kg kv w carry : ℚ) (year : Int),
      (so_step kg kv w year carry).2.2 =
        (if (so_step kg kv w year carry).1 + carry < 0
         then (so_step kg kv w year carry).1 + carry else 0))
    ∧ (∀ (kg kv w carry : ℚ) (year : Int),
      (so_step kg kv w year carry).2.1 =
        (if (so_step kg kv w year carry).1 + carry < (if year ≥ 2024 then (1000 : ℚ) else 600)
         then 0 else (so_step kg kv w year carry).1 + carry))
    ∧ (∀ (kg kv w carry : ℚ) (year : Int),
      (so_step kg kv w year carry).1 + carry < 0 → (so_step kg kv w year carry).2.1 = 0)
    ∧ (∀ (year : Int) (carry kg kv w : ℚ) (rest : List (ℚ × ℚ × ℚ)),
      so_run year carry ((kg, kv, w) :: rest) =
        so_step kg kv w year carry :: so_run (year + 1) (so_step kg kv w year carry).2.2 rest) := by
  refine ⟨fun kg kv w carry year => rfl, fun kg kv w carry year => rfl,
    fun kg kv w carry year => rfl, ?_, fun year carry kg kv w rest => rfl⟩
  intro kg kv w carry year h
  have h3 : (so_step kg kv w year carry).2.1 =
      (if (so_step kg kv w year carry).1 + carry < (if year ≥ 2024 then (1000 : ℚ) else 600)
       then 0 else (so_step kg kv w year carry).1 + carry) := rfl
  rw [h3, if_pos]
  by_cases hy : year ≥ 2024
  · rw [if_pos hy]
    linarith
  · rw [if_neg hy]
    linarith

/-- Witness for C5: crypto gains 100, crypto losses −800, currency gains 50
in 2023 give a negative total −650, which is recorded as the carry-forward
and taxed as zero. -/
theorem claim_C5_witness :
    ((so_step 100 (-800) 50 2023 0).1 + 0 < 0)
    ∧ (so_step 100 (-800) 50 2023 0).2.1 = 0
    ∧ (so_step 100 (-800) 50 2023 0).2.2 = -650 := by
  refine ⟨by norm_num [so_step], ?_, by norm_num [so_step]⟩
  exact claim_C5_anlage_so.2.2.2.1 100 (-800) 50 0 2023 (by norm_num [so_step])

/-- The exact-date hit: a present rate on day `d` is returned as is. -/
theorem get_eurusd_hit (table : Nat → Option (Option ℚ)) (d : Nat) (x : ℚ)
    (h : table d = some (some x)) : get_eurusd table d = some x := by
  cases d with
  | zero => simp [get_eurusd, h]
  | succ d => simp [get_eurusd, h]

/-- Walking backward below a rate-less entry: `rateAt` is unchanged. -/
theorem rateAt_succ_of_none (table : Nat → Option (Option ℚ)) (d : Nat) (r : ℚ)
    (h : table (d + 1) = some none) :
    rateAt table (d + 1) r ↔ rateAt table d r := by
  constructor
  · rintro ⟨a, ha, hta, hall⟩
    have ha' : a ≤ d := by
      rcases Nat.lt_or_ge a (d + 1) with h1 | h2
      · omega
      · have : a = d + 1 := by omega
        rw [this, h] at hta
        exact absurd hta (by simp)
    exact ⟨a, ha', hta, fun e he1 he2 => hall e he1 (by omega)⟩
  · rintro ⟨a, ha, hta, hall⟩
    refine ⟨a, by omega, hta, fun e he1 he2 => ?_⟩
    rcases Nat.lt_or_ge e (d + 1) with h1 | h2
    · exact hall e he1 (by omega)
    · have : e = d + 1 := by omega
      rw [this, h]

/-- The lookup returns `some r` exactly when walking backward from `d`
through rate-less entries reaches the rate `r`. -/
theorem get_eurusd_some_iff (table : Nat → Option (Option ℚ)) (d : Nat) (r : ℚ) :
    get_eurusd table d = some r ↔ rateAt table d r := by
  induction d with
  | zero =>
    cases h0 : table 0 with
    | none =>
      simp only [get_eurusd, h0]
      constructor
      · intro h
        exact absurd h (by simp)
      · rintro ⟨a, ha, hta, _⟩
        have : a = 0 := by omega
        rw [this, h0] at hta
        exact absurd hta (by simp)
    | some o =>
      cases o with
      | none =>
        simp only [get_eurusd, h0]
        constructor
        · intro h
          exact absurd h (by simp)
        · rintro ⟨a, ha, hta, _⟩
          have : a = 0 := by omega
          rw [this, h0] at hta
          exact absurd hta (by simp)
      | some x =>
        simp only [get_eurusd, h0]
        constructor
        · intro h
          refine ⟨0, le_refl 0, ?_, fun e he1 he2 => by omega⟩
          rw [h0]
          exact congrArg some h.symm ▸ rfl
        · rintro ⟨a, ha, hta, _⟩
          have : a = 0 := by omega
          rw [this, h0] at hta
          simp at hta
          rw [hta]
  | succ d ih =>
    cases h0 : table (d + 1) with
    | none =>
      simp only [get_eurusd, h0]
      constructor
      · intro h
        exact absurd h (by simp)
      · rintro ⟨a, ha, hta, hall⟩
        rcases Nat.lt_or_ge a (d + 1) with h1 | h2
        · have := hall (d + 1) h1 (le_refl _)
          rw [h0] at this
          exact absurd this (by simp)
        · have : a = d + 1 := by omega
          rw [this, h0] at hta
          exact absurd hta (by simp)
    | some o =>
      cases o with
      | none =>
        simp only [get_eurusd, h0]
        rw [ih]
        exact (rateAt_succ_of_none table d r h0).symm
      | some x =>
        simp only [get_eurusd, h0]
        constructor
        · intro h
          refine ⟨d + 1, le_refl _, ?_, fun e he1 he2 => by omega⟩
          rw [h0]
          exact congrArg some h.symm ▸ rfl
        · rintro ⟨a, ha, hta, hall⟩
          rcases Nat.lt_or_ge a (d + 1) with h1 | h2
          · have := hall (d + 1) h1 (le_refl _)
            rw [h0] at this
            exact absurd this (by simp)
          · have : a = d + 1 := by omega
            rw [this, h0] at hta
            simp at hta
            rw [hta]

/-- C7: the exchange-rate lookup either returns a rate or fails the run
(`none` models `sys.exit(1)`); it returns `some r` exactly when walking
backward one day at a time through rate-less table entries reaches a day
carrying rate `r`, and it aborts exactly when no rate is reachable that way
— that is, only when no rate is available even after walking backward. -/
theorem claim_C7_eurusd :
    ∀ (table : Nat → Option (Option ℚ)) (d : Nat),
      (∀ r : ℚ, get_eurusd table d = some r ↔ rateAt table d r)
      ∧ (get_eurusd table d = none ↔ ∀ r : ℚ, ¬ rateAt table d r) := by
  intro table d
  refine ⟨fun r => get_eurusd_some_iff table d r, ?_⟩
  constructor
  · intro h r hr
    rw [(get_eurusd_some_iff table d r).mpr hr] at h
    exact absurd h (by simp)
  · intro h
    cases he : get_eurusd table d with
    | none => rfl
    | some x => exact absurd ((get_eurusd_some_iff table d x).mp he) (h x)

/-- Witness for C7: on the concrete table with a rate `11/10` on day 2 and
rate-less weekend entries on days 3 and 4, the lookup for day 4 walks back
and returns the day-2 rate. -/
theorem claim_C7_witness :
    get_eurusd eurusdTableEx 4 = some (11/10) ∧ rateAt eurusdTableEx 4 (11/10) := by
  have h : get_eurusd eurusdTableEx 4 = some (11/10) := by
    norm_num [get_eurusd, eurusdTableEx]
  exact ⟨h, ((claim_C7_eurusd eurusdTableEx 4).1 (11/10)).mp h⟩

/-- Reducing a lot by an opposing quantity of no larger magnitude keeps the
lot's sign (when the result is nonzero). -/
theorem sign_add_of_abs_le (a q : ℚ) (habs : |q| ≤ |a|) (hne : a + q ≠ 0) :
    sign (a + q) = sign a := by
  rcases le_or_lt 0 a with ha | ha
  · have h1 : |a| = a := abs_of_nonneg ha
    have h2 := abs_le.mp (h1 ▸ habs)
    have h3 : 0 ≤ a + q := by linarith [h2.1]
    simp only [sign, if_pos h3, if_pos ha]
  · have h1 : |a| = -a := abs_of_neg ha
    have h2 := abs_le.mp (h1 ▸ habs)
    have hle : a + q ≤ 0 := by linarith [h2.2]
    have hlt : a + q < 0 := lt_of_le_of_ne hle hne
    simp only [sign, if_neg (not_le.mpr hlt), if_neg (not_le.mpr ha)]

/-- The empty queue is well-formed. -/
theorem QueueWF_nil : QueueWF [] := ⟨by simp, by simp⟩

/-- The tail of a well-formed queue is well-formed. -/
theorem QueueWF_tail (lot : Lot) (rest : List Lot) (h : QueueWF (lot :: rest)) :
    QueueWF rest :=
  ⟨fun l hl => h.1 l (List.mem_cons_of_mem _ hl),
   fun l1 h1 l2 h2 => h.2 l1 (List.mem_cons_of_mem _ h1) l2 (List.mem_cons_of_mem _ h2)⟩

/-- The matching loop keeps the queue well-formed. -/
theorem fifo_add_loop_wf (price price_usd : ℚ) (date : Option TDate) (tax_free : Bool)
    (prevyear : Option TDate) :
    ∀ (queue : List Lot) (q : ℚ), q ≠ 0 → QueueWF queue →
      QueueWF (fifo_add_loop price price_usd date tax_free prevyear q queue).2 := by
  intro queue
  induction queue with
  | nil =>
    intro q hq _
    refine ⟨?_, ?_⟩
    · intro l hl
      simp only [fifo_add_loop, List.mem_singleton] at hl
      rw [hl]
      exact hq
    · intro l1 h1 l2 h2
      simp only [fifo_add_loop, List.mem_singleton] at h1 h2
      rw [h1, h2]
  | cons lot rest ih =>
    intro q hq hwf
    by_cases hsign : sign lot.quantity = sign q
    · simp only [fifo_add_loop, if_pos hsign]
      have hall : ∀ l ∈ (lot :: rest) ++ [(⟨price, price_usd, q, date, tax_free⟩ : Lot)],
          sign l.quantity = sign lot.quantity := by
        intro l hl
        rcases List.mem_append.mp hl with h1 | h2
        · exact hwf.2 l h1 lot (List.mem_cons_self _ _)
        · rw [List.mem_singleton.mp h2]
          exact hsign.symm
      refine ⟨?_, ?_⟩
      · intro l hl
        rcases List.mem_append.mp hl with h1 | h2
        · exact hwf.1 l h1
        · rw [List.mem_singleton.mp h2]
          exact hq
      · intro l1 h1 l2 h2
        rw [hall l1 h1, hall l2 h2]
    · by_cases habs : |q| ≤ |lot.quantity|
      · simp only [fifo_add_loop, if_neg hsign, if_pos habs]
        by_cases hz : lot.quantity + q = 0
        · rw [if_pos hz]
          exact QueueWF_tail lot rest hwf
        · rw [if_neg hz]
          have hsq : sign (lot.quantity + q) = sign lot.quantity :=
            sign_add_of_abs_le lot.quantity q habs hz
          have hall : ∀ l ∈ (⟨lot.price, lot.price_usd, lot.quantity + q, lot.date,
              lot.tax_free⟩ : Lot) :: rest, sign l.quantity = sign lot.quantity := by
            intro l hl
            rcases List.mem_cons.mp hl with h1 | h2
            · rw [h1]
              exact hsq
            · exact hwf.2 l (List.mem_cons_of_mem _ h2) lot (List.mem_cons_self _ _)
          refine ⟨?_, ?_⟩
          · intro l hl
            rcases List.mem_cons.mp hl with h1 | h2
            · rw [h1]
              exact hz
            · exact hwf.1 l (List.mem_cons_of_mem _ h2)
          · intro l1 h1 l2 h2
            rw [hall l1 h1, hall l2 h2]
      · have hlt : |lot.quantity| < |q| := not_le.mp habs
        have hq' : q + lot.quantity ≠ 0 := by
          intro h0
          have he : lot.quantity = -q := by linarith
          rw [he, abs_neg] at hlt
          exact lt_irrefl _ hlt
        have hres := ih (q + lot.quantity) hq' (QueueWF_tail lot rest hwf)
        simp only [fifo_add_loop, if_neg hsign, if_neg habs]
        exact hres

/-- `delFifo` removes at most one entry, in place. -/
theorem delFifo_sublist (f : Fifos) (a : String) : (delFifo f a).Sublist f := by
  induction f with
  | nil => exact List.Sublist.refl _
  | cons kq rest ih =>
    obtain ⟨k, q⟩ := kq
    by_cases hk : k = a
    · simp only [delFifo, if_pos hk]
      exact List.Sublist.cons _ (List.Sublist.refl rest)
    · simp only [delFifo, if_neg hk]
      exact List.Sublist.cons₂ _ ih

/-- Entries of `setFifo` are the new entry or old entries. -/
theorem mem_setFifo (f : Fifos) (a : String) (qn : List Lot) (kq : String × List Lot)
    (h : kq ∈ setFifo f a qn) : kq = (a, qn) ∨ kq ∈ f := by
  induction f with
  | nil =>
    simp only [setFifo, List.mem_singleton] at h
    exact Or.inl h
  | cons kq0 rest ih =>
    obtain ⟨k, q0⟩ := kq0
    by_cases hk : k = a
    · simp only [setFifo, if_pos hk] at h
      rcases List.mem_cons.mp h with h1 | h2
      · exact Or.inl h1
      · exact Or.inr (List.mem_cons_of_mem _ h2)
    · simp only [setFifo, if_neg hk] at h
      rcases List.mem_cons.mp h with h1 | h2
      · exact Or.inr (h1 ▸ List.mem_cons_self _ _)
      · rcases ih h2 with h3 | h4
        · exact Or.inl h3
        · exact Or.inr (List.mem_cons_of_mem _ h4)

/-- Keys after `setFifo` are old keys or the written key. -/
theorem keys_setFifo_mem (f : Fifos) (a : String) (qn : List Lot) (x : String)
    (h : x ∈ (setFifo f a qn).map Prod.fst) : x ∈ f.map Prod.fst ∨ x = a := by
  rcases List.mem_map.mp h with ⟨kq, hkq, hx⟩
  rcases mem_setFifo f a qn kq hkq with h1 | h2
  · right
    rw [h1] at hx
    exact hx.symm
  · left
    exact List.mem_map.mpr ⟨kq, h2, hx⟩

/-- `setFifo` keeps the keys distinct. -/
theorem nodup_keys_setFifo (f : Fifos) (a : String) (qn : List Lot)
    (h : (f.map Prod.fst).Nodup) : ((setFifo f a qn).map Prod.fst).Nodup := by
  induction f with
  | nil => simp [setFifo]
  | cons kq0 rest ih =>
    obtain ⟨k, q0⟩ := kq0
    simp only [List.map_cons, List.nodup_cons] at h
    obtain ⟨hk_notin, hrest⟩ := h
    by_cases hk : k = a
    · simp only [setFifo, if_pos hk, List.map_cons, List.nodup_cons]
      exact ⟨hk ▸ hk_notin, hrest⟩
    · simp only [setFifo, if_neg hk, List.map_cons, List.nodup_cons]
      refine ⟨?_, ih hrest⟩
      intro hmem
      rcases keys_setFifo_mem rest a qn k hmem with h1 | h2
      · exact hk_notin h1
      · exact hk h2

/-- A successful lookup is a map entry. -/
theorem lookupFifo_mem (f : Fifos) (a : String) (qq : List Lot)
    (h : lookupFifo f a = some qq) : (a, qq) ∈ f := by
  induction f with
  | nil => simp [lookupFifo] at h
  | cons kq rest ih =>
    obtain ⟨k, q0⟩ := kq
    by_cases hk : k = a
    · simp only [lookupFifo, if_pos hk] at h
      subst hk
      rw [Option.some_inj.mp h]
      exact List.mem_cons_self _ _
    · simp only [lookupFifo, if_neg hk] at h
      exact List.mem_cons_of_mem _ (ih h)

/-- Deleting a key preserves the map invariant. -/
theorem FifosInv_del (f : Fifos) (a : String) (h : FifosInv f) : FifosInv (delFifo f a) := by
  obtain ⟨hnd, hmem⟩ := h
  exact ⟨hnd.sublist ((delFifo_sublist f a).map Prod.fst),
    fun kq hkq => hmem kq ((delFifo_sublist f a).subset hkq)⟩

/-- Writing a non-empty well-formed queue preserves the map invariant. -/
theorem FifosInv_set (f : Fifos) (a : String) (qn : List Lot) (h : FifosInv f)
    (hne : qn ≠ []) (hwf : QueueWF qn) : FifosInv (setFifo f a qn) := by
  obtain ⟨hnd, hmem⟩ := h
  refine ⟨nodup_keys_setFifo f a qn hnd, fun kq hkq => ?_⟩
  rcases mem_setFifo f a qn kq hkq with h1 | h2
  · rw [h1]
    exact ⟨hne, hwf⟩
  · exact hmem kq h2

/-- One `fifo_add` call preserves the map invariant. -/
theorem fifo_add_inv (f : Fifos) (q price price_usd : ℚ) (a : String) (d : Option TDate)
    (tf : Bool) (hinv : FifosInv f) : FifosInv (fifo_add f q price price_usd a d tf).2 := by
  by_cases hq : q = 0
  · simpa [fifo_add, hq] using hinv
  · have hwfq : QueueWF ((lookupFifo f a).getD []) := by
      cases hl : lookupFifo f a with
      | none => exact QueueWF_nil
      | some qq => exact (hinv.2 (a, qq) (lookupFifo_mem f a qq hl)).2
    have hloop := fifo_add_loop_wf price price_usd d tf (prev_year d)
      ((lookupFifo f a).getD []) q hq hwfq
    simp only [fifo_add, if_neg hq]
    by_cases hr : (fifo_add_loop price price_usd d tf (prev_year d) q
        ((lookupFifo f a).getD [])).2 = []
    · rw [if_pos hr]
      exact FifosInv_del f a hinv
    · rw [if_neg hr]
      exact FifosInv_set f a _ hinv hr hloop

/-- C4: after any sequence of `fifo_add` calls starting from the empty map,
every stored queue is non-empty (an emptied queue is deleted from the map,
never left behind), contains no zero-quantity lot, and all its lots share
one sign of quantity; moreover a single call preserves this invariant from
any state satisfying it. -/
theorem claim_C4_invariant :
    (∀ (f : Fifos) (c : AddCall), FifosInv f →
      FifosInv (fifo_add f c.quantity c.price c.price_usd c.asset c.date c.tax_free).2)
    ∧ (∀ calls : List AddCall, FifosInv (run_adds calls)) := by
  refine ⟨fun f c h => fifo_add_inv f c.quantity c.price c.price_usd c.asset c.date
    c.tax_free h, ?_⟩
  intro calls
  suffices h : ∀ f : Fifos, FifosInv f → FifosInv (calls.foldl
      (fun f c => (fifo_add f c.quantity c.price c.price_usd c.asset c.date c.tax_free).2) f) by
    exact h [] ⟨by simp, by simp⟩
  induction calls with
  | nil =>
    intro f hf
    simpa using hf
  | cons c rest ih =>
    intro f hf
    simp only [List.foldl_cons]
    exact ih _ (fifo_add_inv f c.quantity c.price c.price_usd c.asset c.date c.tax_free hf)

/-- Witness for C4: the invariant holds for the empty map and is preserved
by a concrete call opening 5 shares. -/
theorem claim_C4_witness :
    FifosInv [] ∧ FifosInv (fifo_add [] 5 10 10 "AAPL" none false).2 := by
  have h0 : FifosInv ([] : Fifos) := ⟨by simp, by simp⟩
  exact ⟨h0, claim_C4_invariant.1 [] ⟨5, 10, 10, "AAPL", none, false⟩ h0⟩

end TwPnl
